import Mathlib

/-!
Verification of the retrieval pipeline of a RAG-based FAQ backend.

The development shallowly embeds three Python components:
* `app/utils/text_chunker.py` — `TextChunker.split_text` and its helpers,
  modelled as pure functions over `List Char` (Python strings);
* `app/services/embedding_service.py` — `EmbeddingService`, modelled as
  explicit state passing over an in-memory state (`EmbState`) and an
  on-disk state (`Disk`); the external ML pieces (sentence-transformer
  encoding, faiss L2 normalisation) are abstracted as function parameters,
  while faiss `IndexFlatIP` exact search is implemented concretely;
* `app/services/qa_service.py` — the orchestrator's breadth heuristic and
  similarity filtering.

Fallible Python operations are modelled with `Option`/`Except`, and the
exception points of the embedding service (encode failure, vector-add
failure, persistence failure) are surfaced as explicit `Bool` oracles.
-/

/-! ## Python string primitives -/

/-- Python whitespace test used by `str.strip` and the `\s` regex class
(modelled for the ASCII whitespace the pipeline encounters). -/
def isPySpace (c : Char) : Bool := c.isWhitespace

/-- Python `str.lstrip()`. -/
def lstripWs (l : List Char) : List Char := l.dropWhile isPySpace

/-- Python `str.rstrip()`. -/
def rstripWs (l : List Char) : List Char := (l.reverse.dropWhile isPySpace).reverse

/-- Python `str.strip()`. -/
def pyStrip (l : List Char) : List Char := lstripWs (rstripWs l)

/-- Whether `n` occurs at the start of `h` (list-of-characters test). -/
def hasPfx : List Char → List Char → Bool
  | [], _ => true
  | _ :: _, [] => false
  | a :: as, b :: bs => a == b && hasPfx as bs

/-- Python `needle in haystack` substring test. -/
def occursIn (n : List Char) : List Char → Bool
  | [] => n.isEmpty
  | b :: bs => hasPfx n (b :: bs) || occursIn n bs

/-! ## `TextChunker` (app/utils/text_chunker.py) -/

/-- Terminal punctuation of the sentence-splitting regex `[.!?]+`. -/
def isTerm (c : Char) : Bool := c == '.' || c == '!' || c == '?'

/-- Model of `re.sub(r'\s+', ' ', text)`: collapse each maximal run of whitespace
into a single space. -/
def collapseWs : List Char → List Char
  | [] => []
  | c :: rest =>
    if isPySpace c then
      match rest with
      | [] => [' ']
      | d :: _ => if isPySpace d then collapseWs rest else ' ' :: collapseWs rest
    else c :: collapseWs rest

/-- Model of `re.split(r'[.!?]+', text)`: the pieces between maximal runs of
terminal punctuation (empty pieces included, as `re.split` yields them). -/
def reSplitTermPlus : List Char → List (List Char)
  | [] => [[]]
  | c :: rest =>
    let r := reSplitTermPlus rest
    if isTerm c then
      match rest with
      | [] => [[], []]
      | d :: _ => if isTerm d then r else [] :: r
    else
      match r with
      | [] => [[c]]
      | p :: ps => (c :: p) :: ps

/-- Model of `TextChunker._clean_text`: collapse whitespace, replace `\r\n\t` by
spaces, and strip. -/
def clean_text (cs : List Char) : List Char :=
  let t1 := collapseWs cs
  let t2 := t1.map fun c => if c = '\r' ∨ c = '\n' ∨ c = '\t' then ' ' else c
  pyStrip t2

/-- Model of `TextChunker._split_into_sentences`: split on `[.!?]+`, strip each
piece, drop empties, and re-append a `'.'` when the piece does not already
end in terminal punctuation. -/
def split_into_sentences (cs : List Char) : List (List Char) :=
  (reSplitTermPlus cs).filterMap fun s =>
    let s' := pyStrip s
    if s'.isEmpty then none
    else if (s'.getLast?.elim false isTerm) then some s' else some (s' ++ ['.'])

/-- The chunk dictionaries `{"text": ..., "start": ..., "end": ...}`
produced by `TextChunker.split_text`. -/
structure Chunk where
  text : List Char
  start : Int
  endPos : Int
deriving DecidableEq, Repr

/-- The shared emission code of `TextChunker.split_text` (lines 31–36 and
57–62): append `current_chunk.strip()` as a chunk when it is non-empty. -/
def flushChunk (chunks : List Chunk) (current : List Char) (start : Int) : List Chunk :=
  let t := pyStrip current
  if t.isEmpty then chunks else chunks ++ [⟨t, start, start + t.length⟩]

/-- Python `" ".join(texts)`. -/
def joinSpace : List (List Char) → List Char
  | [] => []
  | [t] => t
  | t :: ts => t ++ ' ' :: joinSpace ts

/-- The overlap tail `last_chunk[-chunk_overlap:]` taken inside the branch
where `chunk_overlap > 0` (Python slice of the last at most
`chunk_overlap` characters). -/
def overlapTail (chunk_overlap : Nat) (lastText : List Char) : List Char :=
  if chunk_overlap < lastText.length then lastText.drop (lastText.length - chunk_overlap)
  else lastText

/-- The `for sentence in sentences` loop of `TextChunker.split_text`
(lines 25–54), with loop state `(chunks, current_chunk, start_pos)`;
`flushChunk chunks current start` is the Python `chunks` list as it stands
after the conditional append of lines 31–36. -/
def chunkLoop (chunk_size chunk_overlap : Nat) :
    List (List Char) → List Chunk → List Char → Int → List Chunk × List Char × Int
  | [], chunks, current, start => (chunks, current, start)
  | s :: rest, chunks, current, start =>
    if current.length + s.length ≤ chunk_size then
      chunkLoop chunk_size chunk_overlap rest chunks (current ++ s ++ [' ']) start
    else
      if 0 < chunk_overlap ∧ flushChunk chunks current start ≠ [] then
        match (split_into_sentences (overlapTail chunk_overlap
            ((flushChunk chunks current start).getLastD ⟨[], 0, 0⟩).text)).getLast? with
        | some os =>
          chunkLoop chunk_size chunk_overlap rest (flushChunk chunks current start)
            (os ++ [' '])
            (((flushChunk chunks current start).getLastD ⟨[], 0, 0⟩).endPos - os.length)
        | none =>
          chunkLoop chunk_size chunk_overlap rest (flushChunk chunks current start)
            (s ++ [' '])
            ((flushChunk chunks current start).getLastD ⟨[], 0, 0⟩).endPos
      else
        chunkLoop chunk_size chunk_overlap rest (flushChunk chunks current start)
          (s ++ [' '])
          ((joinSpace ((flushChunk chunks current start).map Chunk.text)).length + 1)

/-- Model of `TextChunker.split_text` with the constructor configuration
`(chunk_size, chunk_overlap)` made explicit. -/
def split_text (chunk_size chunk_overlap : Nat) (text : String) : List Chunk :=
  if (pyStrip text.data).isEmpty then []
  else
    let t := clean_text text.data
    let sentences := split_into_sentences t
    let r := chunkLoop chunk_size chunk_overlap sentences [] [] 0
    flushChunk r.1 r.2.1 r.2.2

/-! ## `QAService` (app/services/qa_service.py) -/

/-- Python truthiness of an `Optional[int]`: `None` and `0` are falsy. -/
def pyTruthyOptInt : Option Int → Bool
  | none => false
  | some k => k != 0

/-- Python `question.lower()`, modelled character-wise (the questions the
service handles are ASCII). -/
def pyLower (s : String) : List Char := s.data.map Char.toLower

/-- Python `word in question_lower` substring containment. -/
def pyIn (needle : String) (hay : List Char) : Bool := occursIn needle.data hay

/-- Model of `any(word in question_lower for word in words)`. -/
def kwAny (words : List String) (ql : List Char) : Bool := words.any fun w => pyIn w ql

/-- Model of `QAService._determine_top_k`. -/
def determine_top_k (question : String) (user_top_k : Option Int) : Int :=
  if pyTruthyOptInt user_top_k then user_top_k.getD 0
  else
    if kwAny ["what", "who", "when", "where"] (pyLower question) then 3
    else if kwAny ["how", "why", "explain", "describe"] (pyLower question) then 7
    else if kwAny ["steps", "procedure", "process", "guide"] (pyLower question) then 8
    else 5

/-- The pydantic request schema `QuestionRequest` (top_k defaults to 5 and
carries no value constraint, so `0` is accepted). -/
structure QuestionRequest where
  question : String
  top_k : Option Int := some 5

/-- Model of `QAService._filter_by_similarity`: keep pairs with `score > threshold`. -/
def filter_by_similarity (chunks : List (String × ℚ)) (threshold : ℚ) : List (String × ℚ) :=
  chunks.filter fun p => threshold < p.2

/-- The retrieval-filtering fragment of `QAService.answer_question`
(lines 36–41): filter at threshold 0.1, and when everything is filtered
out fall back to the first two unfiltered results. -/
def answer_question_retrieval (similar_chunks : List (String × ℚ)) : List (String × ℚ) :=
  if (filter_by_similarity similar_chunks (1 / 10)).isEmpty then similar_chunks.take 2
  else filter_by_similarity similar_chunks (1 / 10)

/-! ## `EmbeddingService` (app/services/embedding_service.py)

Embedding vectors are rationals-valued; the sentence-transformer `encode`
and faiss `normalize_L2` live outside the repository and are abstracted as
function parameters `embed` and `nrm` below. -/

/-- An embedding vector. -/
abbrev Vec := List ℚ

/-- The in-memory state of `EmbeddingService`: the faiss index contents
and the parallel `chunk_ids` list. -/
structure EmbState where
  index : List Vec
  chunk_ids : List String
deriving DecidableEq, Repr

/-- The two persistence artifacts: `{FAISS_INDEX_PATH}.index` and
`{FAISS_INDEX_PATH}_chunk_ids.pkl` (`none` = file absent). -/
structure Disk where
  indexFile : Option (List Vec)
  idsFile : Option (List String)
deriving DecidableEq, Repr

/-- Model of `EmbeddingService.load_or_create_index`: if the `.index` file exists,
load it and unpickle the id list (a missing pickle raises); otherwise
create a fresh empty index — without looking at the id-list artifact. -/
def load_or_create_index (d : Disk) : Except String EmbState :=
  match d.indexFile with
  | some vs =>
    match d.idsFile with
    | some cids => .ok ⟨vs, cids⟩
    | none => .error "FileNotFoundError"
  | none => .ok ⟨[], []⟩

/-- Model of `EmbeddingService.save_index`: write the index file then pickle the id
list, swallowing any exception (`failWrite`/`failDump` are the oracles for
an exception in the respective step). -/
def save_index (s : EmbState) (d : Disk) (failWrite failDump : Bool) : Disk :=
  if failWrite then d
  else if failDump then ⟨some s.index, d.idsFile⟩
  else ⟨some s.index, some s.chunk_ids⟩

/-- Python `list(range(a, b))`. -/
def pyRange (a b : Nat) : List Nat := (List.range (b - a)).map (a + ·)

/-- Model of `EmbeddingService.add_embeddings`: embed, L2-normalise, append to the
index and to the id list, persist, and return the new positions; any
exception before the append (`failGen` in `generate_embeddings`,
`failAddVec` in `index.add`) is caught and yields `[]` with no state
change. Result: (new memory state, new disk state, returned positions). -/
def add_embeddings (embed : String → Vec) (nrm : Vec → Vec)
    (s : EmbState) (d : Disk) (texts ids : List String)
    (failGen failAddVec failWrite failDump : Bool) : EmbState × Disk × List Nat :=
  if texts.isEmpty then (s, d, [])
  else if failGen then (s, d, [])
  else
    let embs := texts.map fun t => nrm (embed t)
    if failAddVec then (s, d, [])
    else
      let start := s.chunk_ids.length
      let s' : EmbState := ⟨s.index ++ embs, s.chunk_ids ++ ids⟩
      (s', save_index s' d failWrite failDump, pyRange start (start + texts.length))

/-- The rebuild loop of `EmbeddingService.remove_embeddings`: walk
`enumerate(chunk_ids)`, and for each id not being removed reconstruct the
vector at its absolute position `i` from the old index (`none` models the
exception faiss raises when `i` is out of range). -/
def removeRebuild (index : List Vec) : List String → Nat → List String →
    Option (List Vec × List String)
  | [], _, _ => some ([], [])
  | cid :: rest, i, rem =>
    if rem.contains cid then removeRebuild index rest (i + 1) rem
    else
      match index.get? i with
      | none => none
      | some v =>
        (removeRebuild index rest (i + 1) rem).map fun p => (v :: p.1, cid :: p.2)

/-- Model of `EmbeddingService.remove_embeddings`: no-op on an empty id list, else
rebuild the index without the given ids and persist. -/
def remove_embeddings (s : EmbState) (d : Disk) (ids : List String)
    (failWrite failDump : Bool) : Option (EmbState × Disk) :=
  if ids.isEmpty then some (s, d)
  else
    (removeRebuild s.index s.chunk_ids 0 ids).map fun p =>
      let s' : EmbState := ⟨p.1, p.2⟩
      (s', save_index s' d failWrite failDump)

/-- Inner product of two vectors (`faiss.IndexFlatIP` similarity). -/
def dotQ (a b : Vec) : ℚ := ((a.zip b).map fun p => p.1 * p.2).sum

/-- The index/score pairs of every index entry against a query. -/
def idxScores (q : Vec) : List Vec → Nat → List (Nat × ℚ)
  | [], _ => []
  | v :: vs, i => (i, dotQ q v) :: idxScores q vs (i + 1)

/-- Insert into a list kept sorted by descending score. -/
def insDesc (a : Nat × ℚ) : List (Nat × ℚ) → List (Nat × ℚ)
  | [] => [a]
  | b :: bs => if b.2 ≤ a.2 then a :: b :: bs else b :: insDesc a bs

/-- Sort index/score pairs by descending score. -/
def sortDesc : List (Nat × ℚ) → List (Nat × ℚ)
  | [] => []
  | a :: as => insDesc a (sortDesc as)

/-- Exact `IndexFlatIP.search`: the `k` entries with the largest inner
product against the query, as (position, score) pairs. -/
def faissSearch (index : List Vec) (q : Vec) (k : Nat) : List (Nat × ℚ) :=
  (sortDesc (idxScores q index 0)).take k

/-- Model of `EmbeddingService.search_similar`: empty id list short-circuits;
otherwise embed and normalise the query, search for
`min(top_k, len(chunk_ids))` neighbours, and translate each in-range
position to its chunk id. -/
def search_similar (embed : String → Vec) (nrm : Vec → Vec)
    (s : EmbState) (q : String) (top_k : Nat) : List (String × ℚ) :=
  if s.chunk_ids.isEmpty then []
  else
    let qv := nrm (embed q)
    let res := faissSearch s.index qv (min top_k s.chunk_ids.length)
    res.filterMap fun pr =>
      if h : pr.1 < s.chunk_ids.length then some (s.chunk_ids.get ⟨pr.1, h⟩, pr.2)
      else none

/-- The parallel-array invariant of the embedding service. -/
def invState (s : EmbState) : Prop := s.index.length = s.chunk_ids.length

/-- Consistency of the persisted artifacts. -/
def invDisk (d : Disk) : Prop :=
  ∀ vs cids, d.indexFile = some vs → d.idsFile = some cids → vs.length = cids.length

/-- States reachable by sequences of successful `add_embeddings`,
`remove_embeddings` and reload (`load_or_create_index`) operations from a
fresh service (no persisted artifacts), with the documented requirement
`len(texts) == len(ids)` on add. -/
inductive Reachable (embed : String → Vec) (nrm : Vec → Vec) : EmbState → Disk → Prop where
  | init : Reachable embed nrm ⟨[], []⟩ ⟨none, none⟩
  | add (s : EmbState) (d : Disk) (texts ids : List String)
      (h : Reachable embed nrm s d) (hl : texts.length = ids.length) :
      Reachable embed nrm
        (add_embeddings embed nrm s d texts ids false false false false).1
        (add_embeddings embed nrm s d texts ids false false false false).2.1
  | remove (s : EmbState) (d : Disk) (ids : List String) (s' : EmbState) (d' : Disk)
      (h : Reachable embed nrm s d)
      (hr : remove_embeddings s d ids false false = some (s', d')) :
      Reachable embed nrm s' d'
  | reload (s : EmbState) (d : Disk) (s' : EmbState)
      (h : Reachable embed nrm s d)
      (hl : load_or_create_index d = .ok s') : Reachable embed nrm s' d

/-- The structural facts about every sentence returned by
`_split_into_sentences`: non-empty, ends in `'.'`, contains neither `'!'`
nor `'?'`, and is its own `strip`. -/
def SentGood (s : List Char) : Prop :=
  s ≠ [] ∧ s.getLast? = some '.' ∧ (∀ c ∈ s, c ≠ '!' ∧ c ≠ '?') ∧ pyStrip s = s

/-- Invariant of the `current_chunk` buffer: free of `'!'`/`'?'`, and its
strip (when non-empty) ends in `'.'`. -/
def BufGood (cur : List Char) : Prop :=
  (∀ c ∈ cur, c ≠ '!' ∧ c ≠ '?') ∧ (pyStrip cur ≠ [] → (pyStrip cur).getLast? = some '.')

/-- Property of every emitted chunk text. -/
def ChunkGood (t : List Char) : Prop :=
  t.getLast? = some '.' ∧ ∀ c ∈ t, c ≠ '!' ∧ c ≠ '?'

/-! ## Basic list/string lemmas -/

theorem mem_of_mem_dropWhile {α : Type} {p : α → Bool} {a : α} :
    ∀ {l : List α}, a ∈ l.dropWhile p → a ∈ l := by
  intro l
  induction l with
  | nil => simp
  | cons x xs ih =>
    simp only [List.dropWhile_cons]
    split
    · intro h
      exact List.mem_cons_of_mem _ (ih h)
    · exact id

theorem mem_dropWhile_of_neg {α : Type} {p : α → Bool} {a : α} (hp : p a = false) :
    ∀ {l : List α}, a ∈ l → a ∈ l.dropWhile p := by
  intro l
  induction l with
  | nil => simp
  | cons x xs ih =>
    intro hm
    simp only [List.dropWhile_cons]
    rcases List.mem_cons.mp hm with rfl | hm'
    · simp [hp]
    · split
      · exact ih hm'
      · exact List.mem_cons_of_mem _ hm'

theorem getLast?_dropWhile_of_neg {α : Type} {p : α → Bool} {c : α} :
    ∀ {l : List α}, l.getLast? = some c → p c = false →
      (l.dropWhile p).getLast? = some c := by
  intro l
  induction l with
  | nil => simp
  | cons x xs ih =>
    intro hl hp
    cases xs with
    | nil =>
      simp only [List.getLast?_singleton, Option.some.injEq] at hl
      subst hl
      simp [List.dropWhile_cons, hp]
    | cons y ys =>
      rw [List.getLast?_cons_cons] at hl
      simp only [List.dropWhile_cons]
      split
      · rw [← List.dropWhile_cons]
        exact ih hl hp
      · rw [List.getLast?_cons_cons]
        exact hl

theorem mem_of_getLast?_eq {α : Type} {a : α} {l : List α} (h : l.getLast? = some a) :
    a ∈ l := by
  rw [List.getLast?_eq_head?_reverse] at h
  have : a ∈ l.reverse := by
    cases hr : l.reverse with
    | nil => rw [hr] at h; simp at h
    | cons b t =>
      rw [hr] at h
      simp only [List.head?_cons, Option.some.injEq] at h
      subst h
      exact List.mem_cons_self _ _
  exact List.mem_reverse.mp this

theorem pyStrip_append_space (l : List Char) : pyStrip (l ++ [' ']) = pyStrip l := by
  unfold pyStrip rstripWs
  have : (l ++ [' ']).reverse.dropWhile isPySpace = l.reverse.dropWhile isPySpace := by
    rw [List.reverse_append]
    simp [List.dropWhile_cons, isPySpace, Char.isWhitespace]
  rw [this]

theorem mem_pyStrip {c : Char} {l : List Char} (hc : isPySpace c = false) (hm : c ∈ l) :
    c ∈ pyStrip l := by
  unfold pyStrip lstripWs rstripWs
  have h1 : c ∈ l.reverse.dropWhile isPySpace :=
    mem_dropWhile_of_neg hc (List.mem_reverse.mpr hm)
  have h2 : c ∈ (l.reverse.dropWhile isPySpace).reverse := List.mem_reverse.mpr h1
  exact mem_dropWhile_of_neg hc h2

theorem mem_of_mem_pyStrip {c : Char} {l : List Char} (hm : c ∈ pyStrip l) : c ∈ l := by
  unfold pyStrip lstripWs rstripWs at hm
  have h1 : c ∈ (l.reverse.dropWhile isPySpace).reverse := mem_of_mem_dropWhile hm
  have h2 : c ∈ l.reverse := mem_of_mem_dropWhile (List.mem_reverse.mp h1)
  exact List.mem_reverse.mp h2

theorem pyStrip_ne_nil {c : Char} {l : List Char} (hc : isPySpace c = false) (hm : c ∈ l) :
    pyStrip l ≠ [] :=
  List.ne_nil_of_mem (mem_pyStrip hc hm)

theorem rstripWs_of_getLast? {c : Char} {l : List Char} (h : l.getLast? = some c)
    (hc : isPySpace c = false) : rstripWs l = l := by
  unfold rstripWs
  rw [List.getLast?_eq_head?_reverse] at h
  cases hr : l.reverse with
  | nil => rw [hr] at h; simp at h
  | cons b t =>
    rw [hr] at h
    simp only [List.head?_cons, Option.some.injEq] at h
    subst h
    rw [List.dropWhile_cons_of_neg (by simp [hc]), ← hr, List.reverse_reverse]

theorem getLast?_pyStrip {c : Char} {l : List Char} (h : l.getLast? = some c)
    (hc : isPySpace c = false) : (pyStrip l).getLast? = some c ∧ pyStrip l ≠ [] := by
  unfold pyStrip
  rw [rstripWs_of_getLast? h hc]
  have h2 : (lstripWs l).getLast? = some c := getLast?_dropWhile_of_neg h hc
  refine ⟨h2, ?_⟩
  intro hnil
  rw [hnil] at h2
  simp at h2

theorem pyStrip_of_ends {h c : Char} {l : List Char} (hh : l.head? = some h)
    (hws : isPySpace h = false) (hl : l.getLast? = some c) (hc : isPySpace c = false) :
    pyStrip l = l := by
  unfold pyStrip
  rw [rstripWs_of_getLast? hl hc]
  cases l with
  | nil => simp at hh
  | cons x xs =>
    simp only [List.head?_cons, Option.some.injEq] at hh
    subst hh
    exact List.dropWhile_cons_of_neg (by simp [hws])

theorem pyStrip_eq_nil_of_all {l : List Char} (h : ∀ x ∈ l, isPySpace x = true) :
    pyStrip l = [] := by
  unfold pyStrip lstripWs rstripWs
  have h1 : l.reverse.dropWhile isPySpace = [] :=
    List.dropWhile_eq_nil_iff.mpr fun x hx => h x (List.mem_reverse.mp hx)
  rw [h1]
  simp

/-! ## Sentence structure lemmas -/

theorem reSplit_term_nil {x : Char} (hx : isTerm x = true) :
    reSplitTermPlus [x] = [[], []] := by
  rw [reSplitTermPlus]
  simp [hx]

theorem reSplit_term_term {x d : Char} {ds : List Char} (hx : isTerm x = true)
    (hd : isTerm d = true) : reSplitTermPlus (x :: d :: ds) = reSplitTermPlus (d :: ds) := by
  rw [reSplitTermPlus]
  simp only [hx, if_true, hd]

theorem reSplit_term_nonterm {x d : Char} {ds : List Char} (hx : isTerm x = true)
    (hd : isTerm d = false) :
    reSplitTermPlus (x :: d :: ds) = [] :: reSplitTermPlus (d :: ds) := by
  rw [reSplitTermPlus]
  simp only [hx, if_true, hd, Bool.false_eq_true, if_false]

theorem reSplit_nonterm {x : Char} {rest : List Char} (hx : isTerm x = false) :
    reSplitTermPlus (x :: rest) =
      (match reSplitTermPlus rest with
       | [] => [[x]]
       | p :: ps => (x :: p) :: ps) := by
  rw [reSplitTermPlus.eq_def]
  simp [hx]

theorem reSplitTermPlus_no_term {c : Char} :
    ∀ {cs : List Char}, ∀ p ∈ reSplitTermPlus cs, c ∈ p → isTerm c = false := by
  intro cs
  induction cs with
  | nil =>
    intro p hp hc
    simp only [reSplitTermPlus, List.mem_singleton] at hp
    subst hp
    simp at hc
  | cons x rest ih =>
    intro p hp hc
    by_cases hx : isTerm x = true
    · cases rest with
      | nil =>
        rw [reSplit_term_nil hx] at hp
        have hpe : p = [] := by
          rcases List.mem_cons.mp hp with h | h
          · exact h
          · simpa using h
        subst hpe
        simp at hc
      | cons d ds =>
        by_cases hd : isTerm d = true
        · rw [reSplit_term_term hx hd] at hp
          exact ih p hp hc
        · rw [reSplit_term_nonterm hx (by simpa using hd)] at hp
          rcases List.mem_cons.mp hp with rfl | hp'
          · simp at hc
          · exact ih p hp' hc
    · rw [reSplit_nonterm (by simpa using hx)] at hp
      cases hr : reSplitTermPlus rest with
      | nil =>
        rw [hr] at hp
        simp at hp
        subst hp
        simp at hc
        subst hc
        simpa using hx
      | cons q qs =>
        rw [hr] at hp
        simp only at hp
        rcases List.mem_cons.mp hp with rfl | hp'
        · rcases List.mem_cons.mp hc with rfl | hc'
          · simpa using hx
          · exact ih q (hr ▸ List.mem_cons_self _ _) hc'
        · exact ih p (hr ▸ List.mem_cons_of_mem _ hp') hc

theorem reSplitTermPlus_covers {c : Char} (hc : isTerm c = false) :
    ∀ {cs : List Char}, c ∈ cs → ∃ p ∈ reSplitTermPlus cs, c ∈ p := by
  intro cs
  induction cs with
  | nil => simp
  | cons x rest ih =>
    intro hm
    by_cases hx : isTerm x = true
    · have hm' : c ∈ rest := by
        rcases List.mem_cons.mp hm with rfl | h
        · rw [hx] at hc; exact absurd hc (by simp)
        · exact h
      obtain ⟨p, hp, hcp⟩ := ih hm'
      cases rest with
      | nil => simp at hm'
      | cons d ds =>
        by_cases hd : isTerm d = true
        · rw [reSplit_term_term hx hd]; exact ⟨p, hp, hcp⟩
        · rw [reSplit_term_nonterm hx (by simpa using hd)]
          exact ⟨p, List.mem_cons_of_mem _ hp, hcp⟩
    · rw [reSplit_nonterm (by simpa using hx)]
      rcases List.mem_cons.mp hm with rfl | hm'
      · cases hr : reSplitTermPlus rest with
        | nil => exact ⟨[c], by simp, by simp⟩
        | cons q qs => exact ⟨c :: q, by simp, by simp⟩
      · obtain ⟨p, hp, hcp⟩ := ih hm'
        cases hr : reSplitTermPlus rest with
        | nil => rw [hr] at hp; simp at hp
        | cons q qs =>
          rw [hr] at hp
          simp only
          rcases List.mem_cons.mp hp with rfl | hp'
          · exact ⟨x :: p, by simp, List.mem_cons_of_mem _ hcp⟩
          · exact ⟨p, List.mem_cons_of_mem _ hp', hcp⟩

theorem sentGood_of_mem {s : List Char} {cs : List Char}
    (hs : s ∈ split_into_sentences cs) : SentGood s := by
  unfold split_into_sentences at hs
  obtain ⟨p, hp, hfp⟩ := List.mem_filterMap.mp hs
  by_cases hemp : (pyStrip p).isEmpty = true
  · simp [hemp] at hfp
  · rw [if_neg hemp] at hfp
    have hnil : pyStrip p ≠ [] := fun h => by simp [h] at hemp
    have hnoterm : ∀ c ∈ pyStrip p, isTerm c = false := fun c hcp =>
      reSplitTermPlus_no_term p hp (mem_of_mem_pyStrip hcp)
    have hlastnone : (pyStrip p).getLast?.elim false isTerm = false := by
      cases hl : (pyStrip p).getLast? with
      | none => rfl
      | some x =>
        simp only [Option.elim]
        exact hnoterm x (mem_of_getLast?_eq hl)
    rw [hlastnone] at hfp
    simp only [Bool.false_eq_true, if_false, Option.some.injEq] at hfp
    subst hfp
    have hW : pyStrip p ≠ [] := hnil
    refine ⟨by simp, List.getLast?_concat _, ?_, ?_⟩
    · intro c hc
      rcases List.mem_append.mp hc with hc' | hc'
      · have := hnoterm c hc'
        simp only [isTerm, Bool.or_eq_false_iff, beq_eq_false_iff_ne, ne_eq] at this
        exact ⟨this.1.2, this.2⟩
      · simp at hc'
        subst hc'
        refine ⟨by decide, by decide⟩
    · -- pyStrip (w ++ ['.']) = w ++ ['.'] since w starts and the whole ends non-space
      cases hW' : pyStrip p with
      | nil => exact absurd hW' hW
      | cons h0 t0 =>
        have hh : (pyStrip p ++ ['.']).head? = some h0 := by rw [hW']; rfl
        have hhead_ws : isPySpace h0 = false := by
          have : pyStrip p ≠ [] := hW
          have hhd := List.head_dropWhile_not isPySpace ((rstripWs p).reverse.dropWhile isPySpace).reverse
          -- head of pyStrip p fails isPySpace
          have h2 : pyStrip p = List.dropWhile isPySpace (rstripWs p) := rfl
          have h3 : List.dropWhile isPySpace (rstripWs p) ≠ [] := h2 ▸ hW
          have h4 := List.head_dropWhile_not isPySpace (rstripWs p) h3
          have h5 : (List.dropWhile isPySpace (rstripWs p)).head h3 = h0 := by
            have := h2 ▸ hW'
            simp only [this, List.head_cons]
          rw [h5] at h4
          exact h4
        have hgl : (h0 :: (t0 ++ ['.'])).getLast? = some '.' := by
          rw [show h0 :: (t0 ++ ['.']) = (h0 :: t0) ++ ['.'] from rfl]
          exact List.getLast?_concat _
        exact pyStrip_of_ends rfl hhead_ws hgl (by decide)

/-! ## Chunk-buffer invariants -/

theorem bufGood_nil : BufGood [] := by
  constructor
  · simp
  · intro h; exact absurd rfl h

theorem bufGood_append {cur s : List Char} (hc : BufGood cur) (hs : SentGood s) :
    BufGood (cur ++ s ++ [' ']) ∧ pyStrip (cur ++ s ++ [' ']) ≠ [] := by
  obtain ⟨hsne, hsl, hsm, _⟩ := hs
  have hdot : (cur ++ s).getLast? = some '.' := by
    rw [List.getLast?_append, hsl]; rfl
  have hstrip := getLast?_pyStrip hdot (by decide)
  have heq : pyStrip (cur ++ s ++ [' ']) = pyStrip (cur ++ s) := pyStrip_append_space _
  refine ⟨⟨?_, ?_⟩, ?_⟩
  · intro c hcm
    rcases List.mem_append.mp hcm with h1 | h2
    · rcases List.mem_append.mp h1 with h3 | h4
      · exact hc.1 c h3
      · exact hsm c h4
    · simp at h2; subst h2; exact ⟨by decide, by decide⟩
  · intro _
    rw [heq]
    exact hstrip.1
  · rw [heq]
    exact hstrip.2

theorem bufGood_seed {s : List Char} (hs : SentGood s) :
    BufGood (s ++ [' ']) ∧ pyStrip (s ++ [' ']) ≠ [] := by
  obtain ⟨hsne, hsl, hsm, hss⟩ := hs
  have heq : pyStrip (s ++ [' ']) = pyStrip s := pyStrip_append_space _
  refine ⟨⟨?_, ?_⟩, ?_⟩
  · intro c hcm
    rcases List.mem_append.mp hcm with h1 | h2
    · exact hsm c h1
    · simp at h2; subst h2; exact ⟨by decide, by decide⟩
  · intro _
    rw [heq, hss]
    exact hsl
  · rw [heq, hss]
    exact hsne

theorem flushChunk_def (chunks : List Chunk) (cur : List Char) (start : Int) :
    flushChunk chunks cur start =
      if (pyStrip cur).isEmpty then chunks
      else chunks ++ [⟨pyStrip cur, start, start + (pyStrip cur).length⟩] := rfl

theorem flushChunk_good {chunks : List Chunk} {cur : List Char} {start : Int}
    (hch : ∀ ch ∈ chunks, ChunkGood ch.text) (hc : BufGood cur) :
    ∀ ch ∈ flushChunk chunks cur start, ChunkGood ch.text := by
  intro ch hm
  rw [flushChunk_def] at hm
  split at hm
  · exact hch ch hm
  · rcases List.mem_append.mp hm with h1 | h2
    · exact hch ch h1
    · simp at h2
      subst h2
      rename_i hne
      have hnil : pyStrip cur ≠ [] := fun h => by simp [h] at hne
      exact ⟨hc.2 hnil, fun c hcm => hc.1 c (mem_of_mem_pyStrip hcm)⟩

theorem flushChunk_ne {chunks : List Chunk} {cur : List Char} {start : Int}
    (h : chunks ≠ [] ∨ pyStrip cur ≠ []) : flushChunk chunks cur start ≠ [] := by
  rw [flushChunk_def]
  split
  · rcases h with h1 | h2
    · exact h1
    · rename_i he
      exact absurd (List.isEmpty_iff.mp he) h2
  · rcases chunks with _ | ⟨c, cs⟩ <;> simp

theorem chunkLoop_good (cs co : Nat) :
    ∀ (sents : List (List Char)) (chunks : List Chunk) (cur : List Char) (start : Int),
      (∀ s ∈ sents, SentGood s) → (∀ ch ∈ chunks, ChunkGood ch.text) → BufGood cur →
      (∀ ch ∈ (chunkLoop cs co sents chunks cur start).1, ChunkGood ch.text) ∧
        BufGood (chunkLoop cs co sents chunks cur start).2.1 := by
  intro sents
  induction sents with
  | nil =>
    intro chunks cur start _ hch hcur
    exact ⟨hch, hcur⟩
  | cons s rest ih =>
    intro chunks cur start hsg hch hcur
    have hs : SentGood s := hsg s (List.mem_cons_self _ _)
    have hrest : ∀ x ∈ rest, SentGood x := fun x hx => hsg x (List.mem_cons_of_mem _ hx)
    rw [chunkLoop]
    by_cases hle : cur.length + s.length ≤ cs
    · rw [if_pos hle]
      exact ih chunks (cur ++ s ++ [' ']) start hrest hch (bufGood_append hcur hs).1
    · rw [if_neg hle]
      have hch' : ∀ ch ∈ flushChunk chunks cur start, ChunkGood ch.text :=
        flushChunk_good hch hcur
      by_cases hov : 0 < co ∧ flushChunk chunks cur start ≠ []
      · rw [if_pos hov]
        cases hosl : (split_into_sentences (overlapTail co
            ((flushChunk chunks cur start).getLastD ⟨[], 0, 0⟩).text)).getLast? with
        | some os =>
          have hos : SentGood os := sentGood_of_mem (mem_of_getLast?_eq hosl)
          exact ih _ _ _ hrest hch' (bufGood_seed hos).1
        | none =>
          exact ih _ _ _ hrest hch' (bufGood_seed hs).1
      · rw [if_neg hov]
        exact ih _ _ _ hrest hch' (bufGood_seed hs).1

theorem pyStrip_append_sent_ne {cur s : List Char} (hs : SentGood s) :
    pyStrip (cur ++ s ++ [' ']) ≠ [] := by
  have hdot : (cur ++ s).getLast? = some '.' := by
    rw [List.getLast?_append, hs.2.1]; rfl
  have hstrip := getLast?_pyStrip hdot (by decide)
  rw [pyStrip_append_space]
  exact hstrip.2

theorem chunkLoop_ne (cs co : Nat) :
    ∀ (sents : List (List Char)) (chunks : List Chunk) (cur : List Char) (start : Int),
      sents ≠ [] → (∀ s ∈ sents, SentGood s) →
      (chunkLoop cs co sents chunks cur start).1 ≠ [] ∨
        pyStrip (chunkLoop cs co sents chunks cur start).2.1 ≠ [] := by
  intro sents
  induction sents with
  | nil => intro _ _ _ h _; exact absurd rfl h
  | cons s rest ih =>
    intro chunks cur start _ hsg
    have hs : SentGood s := hsg s (List.mem_cons_self _ _)
    have hrest : ∀ x ∈ rest, SentGood x := fun x hx => hsg x (List.mem_cons_of_mem _ hx)
    rw [chunkLoop]
    by_cases hle : cur.length + s.length ≤ cs
    · rw [if_pos hle]
      cases rest with
      | nil => exact Or.inr (pyStrip_append_sent_ne hs)
      | cons s2 r2 => exact ih _ _ _ (by simp) hrest
    · rw [if_neg hle]
      by_cases hov : 0 < co ∧ flushChunk chunks cur start ≠ []
      · rw [if_pos hov]
        cases hosl : (split_into_sentences (overlapTail co
            ((flushChunk chunks cur start).getLastD ⟨[], 0, 0⟩).text)).getLast? with
        | some os =>
          have hos : SentGood os := sentGood_of_mem (mem_of_getLast?_eq hosl)
          cases rest with
          | nil => exact Or.inr (bufGood_seed hos).2
          | cons s2 r2 => exact ih _ _ _ (by simp) hrest
        | none =>
          cases rest with
          | nil => exact Or.inr (bufGood_seed hs).2
          | cons s2 r2 => exact ih _ _ _ (by simp) hrest
      · rw [if_neg hov]
        cases rest with
        | nil => exact Or.inr (bufGood_seed hs).2
        | cons s2 r2 => exact ih _ _ _ (by simp) hrest

/-! ## Normalisation preserves non-space characters -/

theorem collapseWs_nonws {x : Char} {rest : List Char} (hx : isPySpace x = false) :
    collapseWs (x :: rest) = x :: collapseWs rest := by
  rw [collapseWs.eq_def]
  simp [hx]

theorem collapseWs_ws_nil {x : Char} (hx : isPySpace x = true) :
    collapseWs [x] = [' '] := by
  rw [collapseWs]
  simp [hx]

theorem collapseWs_ws_ws {x d : Char} {ds : List Char} (hx : isPySpace x = true)
    (hd : isPySpace d = true) : collapseWs (x :: d :: ds) = collapseWs (d :: ds) := by
  rw [collapseWs]
  simp only [hx, if_true, hd]

theorem collapseWs_ws_nonws {x d : Char} {ds : List Char} (hx : isPySpace x = true)
    (hd : isPySpace d = false) :
    collapseWs (x :: d :: ds) = ' ' :: collapseWs (d :: ds) := by
  rw [collapseWs]
  simp only [hx, if_true, hd, Bool.false_eq_true, if_false]

theorem mem_collapseWs {c : Char} (hc : isPySpace c = false) :
    ∀ {l : List Char}, c ∈ l → c ∈ collapseWs l := by
  intro l
  induction l with
  | nil => simp
  | cons x rest ih =>
    intro hm
    by_cases hx : isPySpace x = true
    · have hm' : c ∈ rest := by
        rcases List.mem_cons.mp hm with rfl | h
        · rw [hx] at hc; exact absurd hc (by simp)
        · exact h
      cases rest with
      | nil => simp at hm'
      | cons d ds =>
        by_cases hd : isPySpace d = true
        · rw [collapseWs_ws_ws hx hd]
          exact ih hm'
        · rw [collapseWs_ws_nonws hx (by simpa using hd)]
          exact List.mem_cons_of_mem _ (ih hm')
    · rw [collapseWs_nonws (by simpa using hx)]
      rcases List.mem_cons.mp hm with rfl | hm'
      · exact List.mem_cons_self _ _
      · exact List.mem_cons_of_mem _ (ih hm')

theorem mem_clean_text {c : Char} {cs : List Char} (hws : isPySpace c = false)
    (hm : c ∈ cs) : c ∈ clean_text cs := by
  have h1 : c ∈ collapseWs cs := mem_collapseWs hws hm
  have hfc : (if c = '\r' ∨ c = '\n' ∨ c = '\t' then ' ' else c) = c := by
    rw [if_neg]
    rintro (rfl | rfl | rfl) <;> simp [isPySpace, Char.isWhitespace] at hws
  have h2 : c ∈ (collapseWs cs).map
      (fun c => if c = '\r' ∨ c = '\n' ∨ c = '\t' then ' ' else c) :=
    List.mem_map.mpr ⟨c, h1, hfc⟩
  exact mem_pyStrip hws h2

theorem split_into_sentences_ne {c : Char} {cs : List Char} (hws : isPySpace c = false)
    (hterm : isTerm c = false) (hm : c ∈ cs) : split_into_sentences cs ≠ [] := by
  obtain ⟨p, hp, hcp⟩ := reSplitTermPlus_covers hterm hm
  intro hnil
  unfold split_into_sentences at hnil
  have hfn := List.filterMap_eq_nil.mp hnil p hp
  have hpne : pyStrip p ≠ [] := pyStrip_ne_nil hws hcp
  simp only at hfn
  by_cases he : (pyStrip p).isEmpty = true
  · exact hpne (List.isEmpty_iff.mp he)
  · rw [if_neg he] at hfn
    split at hfn <;> simp at hfn

/-! ## Claims about the chunker -/

/-- C9: for every chunker configuration and input text, every chunk text
produced by `TextChunker.split_text` ends with the character `'.'` and
contains neither `'!'` nor `'?'`: sentence splitting discards the original
run of terminal punctuation and appends exactly one `'.'`, so original
`'!'` and `'?'` are rewritten to `'.'` and chunk content is not in general
a verbatim substring of the normalized input. -/
theorem claim9_chunk_texts_end_in_dot (cs co : Nat) (text : String) :
    ∀ ch ∈ split_text cs co text,
      ch.text.getLast? = some '.' ∧ ∀ c ∈ ch.text, c ≠ '!' ∧ c ≠ '?' := by
  intro ch hch
  unfold split_text at hch
  split at hch
  · simp at hch
  · have hsg : ∀ s ∈ split_into_sentences (clean_text text.data), SentGood s :=
      fun s hs => sentGood_of_mem hs
    have hl := chunkLoop_good cs co (split_into_sentences (clean_text text.data)) [] [] 0
      hsg (by simp) bufGood_nil
    exact flushChunk_good hl.1 hl.2 ch hch

/-- Witness for C9 at a concrete input containing `'!'` and `'?'`. -/
theorem claim9_witness :
    (Chunk.mk "hi. again.".data 0 10) ∈ split_text 100 10 "hi! again?" ∧
    ((Chunk.mk "hi. again.".data 0 10).text.getLast? = some '.' ∧
      ∀ c ∈ (Chunk.mk "hi. again.".data 0 10).text, c ≠ '!' ∧ c ≠ '?') :=
  ⟨by decide, claim9_chunk_texts_end_in_dot 100 10 "hi! again?" _ (by decide)⟩

/-- C7 (amended): empty or whitespace-only input yields `[]`; an input
containing at least one character that is neither whitespace nor terminal
punctuation (`'.'`, `'!'`, `'?'`) yields a non-empty chunk list. (The
unqualified claim — every non-whitespace input yields a non-empty list —
fails on punctuation-only inputs, see the counterexample.) -/
theorem claim7_empty_iff_chunks (cs co : Nat) (text : String) :
    (pyStrip text.data = [] → split_text cs co text = []) ∧
    ((∃ c ∈ text.data, isPySpace c = false ∧ isTerm c = false) →
      split_text cs co text ≠ []) := by
  constructor
  · intro h
    unfold split_text
    rw [if_pos (by simp [h])]
  · rintro ⟨c, hm, hws, hterm⟩
    have hstrip : pyStrip text.data ≠ [] := pyStrip_ne_nil hws hm
    unfold split_text
    rw [if_neg (by simpa using hstrip)]
    have hc : c ∈ clean_text text.data := mem_clean_text hws hm
    have hsne : split_into_sentences (clean_text text.data) ≠ [] :=
      split_into_sentences_ne hws hterm hc
    have hsg : ∀ s ∈ split_into_sentences (clean_text text.data), SentGood s :=
      fun s hs => sentGood_of_mem hs
    have hl := chunkLoop_ne cs co (split_into_sentences (clean_text text.data)) [] [] 0
      hsne hsg
    exact flushChunk_ne hl

/-- Counterexample to C7 as stated: the input `"!!!"` is neither empty nor
whitespace-only (its strip is non-empty), yet `split_text` returns `[]`. -/
theorem claim7_counterexample :
    split_text 1000 200 "!!!" = [] ∧ pyStrip "!!!".data ≠ [] := by decide

/-- Witness for C7: both directions of the amended claim at concrete inputs. -/
theorem claim7_witness :
    (pyStrip " ".data = [] ∧ split_text 1000 200 " " = []) ∧
    ((∃ c ∈ "a".data, isPySpace c = false ∧ isTerm c = false) ∧
      split_text 1000 200 "a" ≠ []) :=
  ⟨⟨by decide, (claim7_empty_iff_chunks 1000 200 " ").1 (by decide)⟩,
   ⟨by decide, (claim7_empty_iff_chunks 1000 200 "a").2 (by decide)⟩⟩

/-- C1 evaluated at a failing input: with `chunk_size = 10` and
`chunk_overlap = 5`, the sentence `"bbbb."` of the normalized input
`"aaaa. bbbb. cccc."` occurs in no chunk text at all — on overflow the
buffer is re-seeded with the overlap sentence only, and the sentence that
triggered the overflow is dropped. -/
theorem claim1_overflow_sentence_dropped :
    "bbbb.".data ∈ split_into_sentences (clean_text "aaaa. bbbb. cccc.".data) ∧
    (split_text 10 5 "aaaa. bbbb. cccc.").all
      (fun ch => !(occursIn "bbbb.".data ch.text)) = true ∧
    split_text 10 5 "aaaa. bbbb. cccc." ≠ [] := by decide

/-! ## Claims about the orchestrator heuristics -/

/-- C5 (amended): with no explicit `top_k`, `_determine_top_k` returns 3
when the lowercased question contains any of what/who/when/where, else 7
for how/why/explain/describe, else 8 for steps/procedure/process/guide,
else 5, with the keyword sets checked in exactly that priority order; an
explicit NONZERO `top_k` is returned unchanged, overriding the heuristic.
(An explicit `top_k = 0` is not returned unchanged — see the
counterexample and C10.) -/
theorem claim5_breadth_heuristic (q : String) (k : Int) :
    (k ≠ 0 → determine_top_k q (some k) = k) ∧
    (kwAny ["what", "who", "when", "where"] (pyLower q) = true →
      determine_top_k q none = 3) ∧
    (kwAny ["what", "who", "when", "where"] (pyLower q) = false →
      kwAny ["how", "why", "explain", "describe"] (pyLower q) = true →
      determine_top_k q none = 7) ∧
    (kwAny ["what", "who", "when", "where"] (pyLower q) = false →
      kwAny ["how", "why", "explain", "describe"] (pyLower q) = false →
      kwAny ["steps", "procedure", "process", "guide"] (pyLower q) = true →
      determine_top_k q none = 8) ∧
    (kwAny ["what", "who", "when", "where"] (pyLower q) = false →
      kwAny ["how", "why", "explain", "describe"] (pyLower q) = false →
      kwAny ["steps", "procedure", "process", "guide"] (pyLower q) = false →
      determine_top_k q none = 5) := by
  refine ⟨fun hk => ?_, fun h1 => ?_, fun h1 h2 => ?_, fun h1 h2 h3 => ?_,
    fun h1 h2 h3 => ?_⟩ <;>
    simp [determine_top_k, pyTruthyOptInt, *]

/-- Counterexample to C5 as stated: the caller-supplied explicit
`top_k = 0` is not returned unchanged — the heuristic answers 8 for a
procedural question instead of the supplied 0. -/
theorem claim5_counterexample :
    determine_top_k "follow the steps" (some 0) = 8 ∧ (8 : Int) ≠ 0 := by
  constructor
  · decide
  · decide

/-- Witness for C5 at the spec's own examples. -/
theorem claim5_witness :
    determine_top_k "What is the capital of France?" none = 3 ∧
    determine_top_k "How does it work" none = 7 ∧
    determine_top_k "anything" (some 2) = 2 :=
  ⟨(claim5_breadth_heuristic "What is the capital of France?" 0).2.1 (by decide),
   (claim5_breadth_heuristic "How does it work" 0).2.2.1 (by decide) (by decide),
   (claim5_breadth_heuristic "anything" 2).1 (by decide)⟩

/-- C10: an explicit `top_k = 0` supplied through `QuestionRequest` is not
used: the truthiness-based override test treats 0 as absent, so the
keyword heuristic result is returned, and the returned value is never the
supplied 0. -/
theorem claim10_zero_top_k_ignored (q : String) :
    determine_top_k q (QuestionRequest.mk q (some 0)).top_k = determine_top_k q none ∧
    determine_top_k q (some 0) ≠ 0 := by
  constructor
  · rfl
  · have h : determine_top_k q (some 0) = determine_top_k q none := rfl
    rw [h]
    simp only [determine_top_k, pyTruthyOptInt]
    split
    · simp_all
    · split
      · norm_num
      · split
        · norm_num
        · split <;> norm_num

/-- C6: for every non-empty search-result list, `_filter_by_similarity`
keeps exactly the results whose score strictly exceeds the 0.1 threshold,
and when it drops everything `answer_question` proceeds with the first two
unfiltered results instead of returning nothing. -/
theorem claim6_similarity_filter (similar : List (String × ℚ)) (h : similar ≠ []) :
    (∀ p, p ∈ filter_by_similarity similar (1 / 10) ↔ p ∈ similar ∧ 1 / 10 < p.2) ∧
    (filter_by_similarity similar (1 / 10) = [] →
      answer_question_retrieval similar = similar.take 2 ∧
        answer_question_retrieval similar ≠ []) ∧
    (filter_by_similarity similar (1 / 10) ≠ [] →
      answer_question_retrieval similar = filter_by_similarity similar (1 / 10)) := by
  refine ⟨?_, ?_, ?_⟩
  · intro p
    simp [filter_by_similarity, List.mem_filter]
  · intro hf
    have he : answer_question_retrieval similar = similar.take 2 := by
      unfold answer_question_retrieval
      rw [hf]
      simp
    refine ⟨he, ?_⟩
    rw [he]
    cases similar with
    | nil => exact absurd rfl h
    | cons a t => simp
  · intro hf
    unfold answer_question_retrieval
    rw [if_neg (by simpa [List.isEmpty_iff] using hf)]

/-- Witness for C6: one run where the filter keeps a result and one where
the fallback to the top two unfiltered results fires. -/
theorem claim6_witness :
    answer_question_retrieval [("a", (1:ℚ)/2), ("b", 1/100)] = [("a", 1/2)] ∧
    answer_question_retrieval [("c", (1:ℚ)/100), ("d", 1/50), ("e", 1/100)] =
      [("c", 1/100), ("d", 1/50)] := by
  constructor
  · have hk := (claim6_similarity_filter [("a", (1:ℚ)/2), ("b", 1/100)] (by simp)).2.2
      (by norm_num [filter_by_similarity, List.filter])
    rw [hk]
    norm_num [filter_by_similarity, List.filter]
  · have hk := (claim6_similarity_filter [("c", (1:ℚ)/100), ("d", 1/50), ("e", 1/100)]
      (by simp)).2.1 (by norm_num [filter_by_similarity, List.filter])
    rw [hk.1]
    rfl

/-! ## Embedding-service lemmas -/

theorem idxScores_lt {q : Vec} :
    ∀ {vs : List Vec} {i : Nat} {pr : Nat × ℚ}, pr ∈ idxScores q vs i → pr.1 < i + vs.length := by
  intro vs
  induction vs with
  | nil => simp [idxScores]
  | cons v t ih =>
    intro i pr hm
    simp only [idxScores] at hm
    rcases List.mem_cons.mp hm with rfl | hm'
    · simp
    · have := ih hm'
      simp only [List.length_cons]
      omega

theorem mem_insDesc {a pr : Nat × ℚ} :
    ∀ {l : List (Nat × ℚ)}, pr ∈ insDesc a l → pr = a ∨ pr ∈ l := by
  intro l
  induction l with
  | nil => simp [insDesc]
  | cons b t ih =>
    simp only [insDesc]
    split
    · intro h
      rcases List.mem_cons.mp h with rfl | h'
      · exact Or.inl rfl
      · exact Or.inr h'
    · intro h
      rcases List.mem_cons.mp h with rfl | h'
      · exact Or.inr (List.mem_cons_self _ _)
      · rcases ih h' with rfl | h2
        · exact Or.inl rfl
        · exact Or.inr (List.mem_cons_of_mem _ h2)

theorem mem_sortDesc {pr : Nat × ℚ} :
    ∀ {l : List (Nat × ℚ)}, pr ∈ sortDesc l → pr ∈ l := by
  intro l
  induction l with
  | nil => simp [sortDesc]
  | cons b t ih =>
    intro h
    simp only [sortDesc] at h
    rcases mem_insDesc h with rfl | h'
    · exact List.mem_cons_self _ _
    · exact List.mem_cons_of_mem _ (ih h')

theorem faissSearch_lt {index : List Vec} {q : Vec} {k : Nat} {pr : Nat × ℚ}
    (h : pr ∈ faissSearch index q k) : pr.1 < index.length := by
  unfold faissSearch at h
  have h1 : pr ∈ sortDesc (idxScores q index 0) := List.mem_of_mem_take h
  have h2 := mem_sortDesc h1
  have h3 := idxScores_lt h2
  simpa using h3

theorem search_similar_mem {embed : String → Vec} {nrm : Vec → Vec} {s : EmbState}
    {q : String} {top_k : Nat} {p : String × ℚ}
    (hp : p ∈ search_similar embed nrm s q top_k) : p.1 ∈ s.chunk_ids := by
  unfold search_similar at hp
  split at hp
  · simp at hp
  · obtain ⟨pr, _, hf⟩ := List.mem_filterMap.mp hp
    split at hf
    · simp only [Option.some.injEq] at hf
      subst hf
      exact List.get_mem _ _ _
    · simp at hf

theorem removeRebuild_eq (index : List Vec) (rem : List String) :
    ∀ (cids : List String) (i : Nat), i + cids.length ≤ index.length →
      removeRebuild index cids i rem =
        some
          ((((cids.zip (index.drop i)).filter fun pr => !(rem.contains pr.1)).map Prod.snd),
           (((cids.zip (index.drop i)).filter fun pr => !(rem.contains pr.1)).map Prod.fst)) := by
  intro cids
  induction cids with
  | nil => intro i h; simp [removeRebuild]
  | cons c t ih =>
    intro i h
    have hi : i < index.length := by
      simp only [List.length_cons] at h
      omega
    have hdrop : index.drop i = index[i] :: index.drop (i + 1) :=
      List.drop_eq_getElem_cons hi
    have hget : index.get? i = some index[i] := by
      rw [List.get?_eq_getElem?, List.getElem?_eq_getElem hi]
    have hrec := ih (i + 1) (by simp only [List.length_cons] at h; omega)
    simp only [removeRebuild]
    by_cases hc : rem.contains c
    · have hc' : c ∈ rem := by simpa using hc
      rw [if_pos hc, hrec, hdrop, List.zip_cons_cons, List.filter_cons]
      simp [hc']
    · have hc' : c ∉ rem := by simpa using hc
      rw [if_neg hc, hget, hrec, hdrop, List.zip_cons_cons, List.filter_cons]
      simp [hc']

theorem remove_embeddings_eq {s : EmbState} {d : Disk} {ids : List String} {fw fd : Bool}
    (hinv : invState s) (hne : ids.isEmpty = false) :
    remove_embeddings s d ids fw fd =
      some
        (⟨((s.chunk_ids.zip s.index).filter fun pr => !(ids.contains pr.1)).map Prod.snd,
          ((s.chunk_ids.zip s.index).filter fun pr => !(ids.contains pr.1)).map Prod.fst⟩,
         save_index
           ⟨((s.chunk_ids.zip s.index).filter fun pr => !(ids.contains pr.1)).map Prod.snd,
            ((s.chunk_ids.zip s.index).filter fun pr => !(ids.contains pr.1)).map Prod.fst⟩
           d fw fd) := by
  unfold remove_embeddings
  rw [if_neg (by simp [hne])]
  rw [removeRebuild_eq s.index ids s.chunk_ids 0 (by rw [invState] at hinv; omega)]
  rw [List.drop_zero]
  rfl

theorem save_index_ok (s : EmbState) (d : Disk) :
    save_index s d false false = ⟨some s.index, some s.chunk_ids⟩ := rfl

theorem reachable_inv {embed : String → Vec} {nrm : Vec → Vec} {s : EmbState} {d : Disk}
    (h : Reachable embed nrm s d) : invState s ∧ invDisk d := by
  induction h with
  | init =>
    refine ⟨rfl, ?_⟩
    intro vs cids hv _
    simp at hv
  | add s d texts ids h hl ih =>
    by_cases ht : texts.isEmpty = true
    · have hnoop : add_embeddings embed nrm s d texts ids false false false false =
          (s, d, []) := by
        unfold add_embeddings
        rw [if_pos ht]
      rw [hnoop]
      exact ih
    · have hadd : add_embeddings embed nrm s d texts ids false false false false =
          (⟨s.index ++ texts.map fun t => nrm (embed t), s.chunk_ids ++ ids⟩,
           ⟨some (s.index ++ texts.map fun t => nrm (embed t)), some (s.chunk_ids ++ ids)⟩,
           pyRange s.chunk_ids.length (s.chunk_ids.length + texts.length)) := by
        unfold add_embeddings
        rw [if_neg ht]
        rfl
      rw [hadd]
      have hinv' : invState
          ⟨s.index ++ texts.map fun t => nrm (embed t), s.chunk_ids ++ ids⟩ := by
        have h1 := ih.1
        simp only [invState] at h1 ⊢
        simp only [List.length_append, List.length_map]
        omega
      refine ⟨hinv', ?_⟩
      intro vs cids hv hc
      simp only [Option.some.injEq] at hv hc
      subst hv
      subst hc
      exact hinv'
  | remove s d ids s' d' h hr ih =>
    by_cases hi : ids.isEmpty = true
    · unfold remove_embeddings at hr
      rw [if_pos hi] at hr
      simp only [Option.some.injEq, Prod.mk.injEq] at hr
      obtain ⟨rfl, rfl⟩ := hr
      exact ih
    · have hi' : ids.isEmpty = false := by simpa using hi
      rw [remove_embeddings_eq ih.1 hi'] at hr
      simp only [Option.some.injEq, Prod.mk.injEq] at hr
      obtain ⟨hs', hd'⟩ := hr
      have hinv' : invState s' := by
        rw [← hs']
        simp [invState]
      refine ⟨hinv', ?_⟩
      rw [← hd', save_index_ok]
      intro vs cids hv hc
      simp only [Option.some.injEq] at hv hc
      subst hv
      subst hc
      simp
  | reload s d s' h hl ih =>
    refine ⟨?_, ih.2⟩
    unfold load_or_create_index at hl
    cases hd1 : d.indexFile with
    | none =>
      rw [hd1] at hl
      simp only [Except.ok.injEq] at hl
      subst hl
      rfl
    | some vs =>
      rw [hd1] at hl
      cases hd2 : d.idsFile with
      | none =>
        rw [hd2] at hl
        simp at hl
      | some cids =>
        rw [hd2] at hl
        simp only [Except.ok.injEq] at hl
        subst hl
        exact ih.2 vs cids hd1 hd2

/-! ## Claims about the embedding service -/

/-- C2: (a) after any sequence of add/remove/reload operations the id list
and the index stay parallel; (b) remove keeps surviving (id, vector) pairs
in lockstep (entry i still corresponds to chunk_ids[i]) and removes every
occurrence of the removed ids; (c) every search result id comes from the
id list; (d) hence after remove(ids) no removed id appears in any search
result on the resulting state. -/
theorem claim2_parallel_arrays (embed : String → Vec) (nrm : Vec → Vec) :
    (∀ s d, Reachable embed nrm s d → s.index.length = s.chunk_ids.length) ∧
    (∀ (s : EmbState) (d : Disk) (ids : List String) (s' : EmbState) (d' : Disk)
        (fw fd : Bool),
      invState s → remove_embeddings s d ids fw fd = some (s', d') →
      invState s' ∧
      s'.chunk_ids.zip s'.index =
        (s.chunk_ids.zip s.index).filter (fun pr => !(ids.contains pr.1)) ∧
      ∀ a ∈ ids, a ∉ s'.chunk_ids) ∧
    (∀ (s : EmbState) (q : String) (k : Nat) (p : String × ℚ),
      p ∈ search_similar embed nrm s q k → p.1 ∈ s.chunk_ids) ∧
    (∀ (s : EmbState) (d : Disk) (ids : List String) (s' : EmbState) (d' : Disk)
        (fw fd : Bool) (q : String) (k : Nat),
      invState s → remove_embeddings s d ids fw fd = some (s', d') →
      ∀ p ∈ search_similar embed nrm s' q k, p.1 ∉ ids) := by
  have hremove : ∀ (s : EmbState) (d : Disk) (ids : List String) (s' : EmbState) (d' : Disk)
      (fw fd : Bool),
      invState s → remove_embeddings s d ids fw fd = some (s', d') →
      invState s' ∧
      s'.chunk_ids.zip s'.index =
        (s.chunk_ids.zip s.index).filter (fun pr => !(ids.contains pr.1)) ∧
      ∀ a ∈ ids, a ∉ s'.chunk_ids := by
    intro s d ids s' d' fw fd hinv hr
    by_cases hi : ids.isEmpty = true
    · have hids : ids = [] := List.isEmpty_iff.mp hi
      subst hids
      unfold remove_embeddings at hr
      simp only [List.isEmpty_nil, if_true] at hr
      simp only [Option.some.injEq, Prod.mk.injEq] at hr
      obtain ⟨rfl, rfl⟩ := hr
      refine ⟨hinv, ?_, by simp⟩
      simp
    · have hi' : ids.isEmpty = false := by simpa using hi
      rw [remove_embeddings_eq hinv hi'] at hr
      simp only [Option.some.injEq, Prod.mk.injEq] at hr
      obtain ⟨hs', _⟩ := hr
      have hzip : s'.chunk_ids.zip s'.index =
          (s.chunk_ids.zip s.index).filter (fun pr => !(ids.contains pr.1)) := by
        rw [← hs']
        have hu := List.zip_unzip ((s.chunk_ids.zip s.index).filter
          (fun pr => !(ids.contains pr.1)))
        rw [List.unzip_eq_map] at hu
        exact hu
      refine ⟨?_, hzip, ?_⟩
      · rw [← hs']
        simp [invState]
      · intro a ha hmem
        rw [← hs'] at hmem
        simp only at hmem
        obtain ⟨pr, hprF, hpr1⟩ := List.mem_map.mp hmem
        have := (List.mem_filter.mp hprF).2
        rw [hpr1] at this
        simp at this
        exact this ha
  refine ⟨fun s d h => (reachable_inv h).1, hremove, fun s q k p hp => search_similar_mem hp, ?_⟩
  intro s d ids s' d' fw fd q k hinv hr p hp
  have h1 : p.1 ∈ s'.chunk_ids := search_similar_mem hp
  have h2 := (hremove s d ids s' d' fw fd hinv hr).2.2
  intro ha
  exact h2 p.1 ha h1

/-- Witness for C2: a concrete removal from a two-entry index followed by
a search on the resulting state. -/
theorem claim2_witness :
    (EmbState.mk [] []).index.length = (EmbState.mk [] []).chunk_ids.length ∧
    "a" ∉ (EmbState.mk [[]] ["b"]).chunk_ids ∧
    "b" ∈ (EmbState.mk [[]] ["b"]).chunk_ids ∧
    "b" ∉ ["a"] := by
  refine ⟨(claim2_parallel_arrays (fun _ => []) (fun v => v)).1 _ _ Reachable.init,
    ?_, ?_, ?_⟩
  · exact ((claim2_parallel_arrays (fun _ => []) (fun v => v)).2.1
      ⟨[[], []], ["a", "b"]⟩ ⟨none, none⟩ ["a"] ⟨[[]], ["b"]⟩ ⟨some [[]], some ["b"]⟩
      false false rfl (by decide)).2.2 "a" (by simp)
  · exact (claim2_parallel_arrays (fun _ => []) (fun v => v)).2.2.1
      ⟨[[]], ["b"]⟩ "q" 5 ("b", 0) (by decide)
  · exact (claim2_parallel_arrays (fun _ => []) (fun v => v)).2.2.2
      ⟨[[], []], ["a", "b"]⟩ ⟨none, none⟩ ["a"] ⟨[[]], ["b"]⟩ ⟨some [[]], some ["b"]⟩
      false false "q" 5 rfl (by decide) ("b", 0) (by decide)

/-- C3 (amended): when the serialized vector structure exists without the
serialized id list, loading fails loudly (opening the missing pickle
raises); but when the id list exists without the vector structure,
`load_or_create_index` silently initializes an empty index, because only
the existence of the `.index` artifact is checked. -/
theorem claim3_load_artifacts (vs : List Vec) (cids : List String) :
    load_or_create_index ⟨some vs, none⟩ = .error "FileNotFoundError" ∧
    load_or_create_index ⟨none, some cids⟩ = .ok ⟨[], []⟩ ∧
    load_or_create_index ⟨some vs, some cids⟩ = .ok ⟨vs, cids⟩ ∧
    load_or_create_index ⟨none, none⟩ = .ok ⟨[], []⟩ :=
  ⟨rfl, rfl, rfl, rfl⟩

/-- Counterexample to C3 as stated: with only the id-list artifact on disk
the load does not fail with an error — it silently returns an empty
index. -/
theorem claim3_counterexample :
    load_or_create_index ⟨none, some ["1_0"]⟩ = .ok ⟨[], []⟩ ∧
    ¬ ∃ e, load_or_create_index ⟨none, some ["1_0"]⟩ = .error e := by
  refine ⟨rfl, ?_⟩
  rintro ⟨e, he⟩
  simp [load_or_create_index] at he

/-- C4 (amended): for `add_embeddings` with non-empty `texts`: a failure
in embedding generation or vector insertion commits nothing — memory and
disk unchanged and `[]` returned; when both succeed, the index and the id
list are appended in lockstep and the newly assigned consecutive integer
positions are returned; persistence is attempted before returning and,
when it does not fail, both artifacts hold the new state — but a
persistence failure is swallowed: the in-memory state stays updated and
the positions are still returned while the disk is left unchanged. -/
theorem claim4_add_failure_behaviour (embed : String → Vec) (nrm : Vec → Vec)
    (s : EmbState) (d : Disk) (texts ids : List String) (hne : texts ≠ []) :
    (∀ fg fa fw fd, fg = true ∨ fa = true →
      add_embeddings embed nrm s d texts ids fg fa fw fd = (s, d, [])) ∧
    (∀ fw fd,
      (add_embeddings embed nrm s d texts ids false false fw fd).1 =
        ⟨s.index ++ texts.map fun t => nrm (embed t), s.chunk_ids ++ ids⟩ ∧
      (add_embeddings embed nrm s d texts ids false false fw fd).2.2 =
        pyRange s.chunk_ids.length (s.chunk_ids.length + texts.length) ∧
      (add_embeddings embed nrm s d texts ids false false fw fd).2.2 ≠ []) ∧
    ((add_embeddings embed nrm s d texts ids false false false false).2.1 =
      ⟨some (s.index ++ texts.map fun t => nrm (embed t)), some (s.chunk_ids ++ ids)⟩) ∧
    (∀ fd, (add_embeddings embed nrm s d texts ids false false true fd).2.1 = d) := by
  have ht : ¬ texts.isEmpty = true := by simp [List.isEmpty_iff, hne]
  have hadd : ∀ fw fd, add_embeddings embed nrm s d texts ids false false fw fd =
      (⟨s.index ++ texts.map fun t => nrm (embed t), s.chunk_ids ++ ids⟩,
       save_index ⟨s.index ++ texts.map fun t => nrm (embed t), s.chunk_ids ++ ids⟩ d fw fd,
       pyRange s.chunk_ids.length (s.chunk_ids.length + texts.length)) := by
    intro fw fd
    unfold add_embeddings
    rw [if_neg ht]
    rfl
  refine ⟨?_, ?_, ?_, ?_⟩
  · intro fg fa fw fd hfail
    unfold add_embeddings
    rw [if_neg ht]
    rcases hfail with rfl | rfl
    · rfl
    · by_cases hfg : fg = true
      · subst hfg; rfl
      · have hfg' : fg = false := by simpa using hfg
        subst hfg'
        rfl
  · intro fw fd
    rw [hadd]
    refine ⟨rfl, rfl, ?_⟩
    have hlen : (pyRange s.chunk_ids.length (s.chunk_ids.length + texts.length)).length =
        texts.length := by
      simp [pyRange]
    intro h0
    have h0' : pyRange s.chunk_ids.length (s.chunk_ids.length + texts.length) = [] := h0
    rw [h0'] at hlen
    simp only [List.length_nil] at hlen
    exact hne (List.length_eq_zero.mp hlen.symm)
  · rw [hadd, save_index_ok]
  · intro fd
    rw [hadd]
    rfl

/-- Counterexample to C4 as stated: when the persistence step fails
mid-operation (swallowed by `save_index`'s `except`), vectors and ids ARE
committed in memory and the new positions are returned while the disk
stays untouched — neither "no vectors and no ids are committed" nor
"persisted to durable storage before the call returns" holds. -/
theorem claim4_counterexample :
    add_embeddings (fun _ => []) (fun v => v) ⟨[], []⟩ ⟨none, none⟩ ["t"] ["a"]
        false false true false =
      (⟨[[]], ["a"]⟩, ⟨none, none⟩, [0]) ∧
    (⟨[[]], ["a"]⟩ : EmbState) ≠ ⟨[], []⟩ ∧ ([0] : List Nat) ≠ [] := by
  refine ⟨by decide, by decide, by decide⟩

/-- Witness for C4: the three behaviours at concrete inputs. -/
theorem claim4_witness :
    add_embeddings (fun _ => []) (fun v => v) ⟨[], []⟩ ⟨none, none⟩ ["t"] ["a"]
        true false false false = (⟨[], []⟩, ⟨none, none⟩, []) ∧
    (add_embeddings (fun _ => []) (fun v => v) ⟨[], []⟩ ⟨none, none⟩ ["t"] ["a"]
        false false false false).2.1 = ⟨some [[]], some ["a"]⟩ ∧
    (add_embeddings (fun _ => []) (fun v => v) ⟨[], []⟩ ⟨none, none⟩ ["t"] ["a"]
        false false true true).2.1 = ⟨none, none⟩ := by
  have h := claim4_add_failure_behaviour (fun _ => []) (fun v => v) ⟨[], []⟩ ⟨none, none⟩
    ["t"] ["a"] (by decide)
  exact ⟨h.1 true false false false (Or.inl rfl), h.2.2.1, h.2.2.2 true⟩

/-- C8: `add_embeddings([], [])` returns `[]` and `remove_embeddings([])`
returns without effect: for every prior state and every failure oracle,
both leave the in-memory index, the chunk-id list and the persisted
artifacts exactly unchanged, and perform no persistence. -/
theorem claim8_empty_noops (embed : String → Vec) (nrm : Vec → Vec) (s : EmbState)
    (d : Disk) (fg fa fw fd : Bool) :
    add_embeddings embed nrm s d [] [] fg fa fw fd = (s, d, []) ∧
    remove_embeddings s d [] fw fd = some (s, d) :=
  ⟨rfl, rfl⟩
